import Mathlib

/-!
Verification of the CSV_CTS longitudinal reshaper (`report.py`, function `cli`).

The pipeline embedded here follows the source step by step:
blank-fill and case-normalise responses, filter invalid responses, map raw
responses to canonical codes, remove every copy of duplicated
(subject, date) keys, left-join the start-date registry, compute the day
delta, filter to the `[0, max_days)` window, derive 1-based day numbers and
zero-padded `Day...` column labels, and finally pivot and aggregate.

Dates are modelled as integers (days since an arbitrary epoch), which is
faithful to the day-resolution timestamp arithmetic of the source.
-/

namespace CsvCts

/-- Raw input row as produced by `read_datafile`: the id and date form the
index, the response cell may be missing (`NaN` in the source). -/
structure RawRecord where
  id : Nat
  date : Int
  response : Option String
  deriving DecidableEq, Repr

/-- Configuration relevant to the core pipeline: the `[responses]` section
(raw code to canonical code), the `[response_names]` section (raw code to
display name), the start-date registry contents, `offset_days` and
`max_days` from the `[datemap]` section. -/
structure Config where
  responseMap : List (String × String)
  responseNames : List (String × String)
  dateMap : List (Nat × Int)
  offsetDays : Int
  maxDays : Nat
  deriving DecidableEq, Repr

/-- Record after response normalisation: the response has been mapped to
its canonical code. -/
structure NormRecord where
  id : Nat
  date : Int
  canon : String
  deriving DecidableEq, Repr

/-- Record after the left join with the start-date registry: `dateOne` is
the subject's start date, or `none` when the subject is absent from the
registry (a `NaT` in the source). -/
structure JoinedRecord where
  id : Nat
  date : Int
  canon : String
  dateOne : Option Int
  deriving DecidableEq, Repr

/-- Record surviving the window filter, carrying its day delta. -/
structure AlignedRecord where
  id : Nat
  date : Int
  canon : String
  delta : Int
  deriving DecidableEq, Repr

/-- Python `str.strip` is used on responses; this models stripping of
leading and trailing whitespace. -/
def isSpaceChar (c : Char) : Bool :=
  c == ' ' || c == '\t' || c == '\n' || c == '\r'

/-- Python `str.strip`, modelled on the character list of the string. -/
def strStrip (s : String) : String :=
  String.mk (((s.data.dropWhile isSpaceChar).reverse.dropWhile isSpaceChar).reverse)

/-- Python `str.lower`, modelled with ASCII lower-casing per character. -/
def strLower (s : String) : String :=
  String.mk (s.data.map Char.toLower)

/-- First-match lookup in an association list of strings; models a Python
dict built from unique INI keys. -/
def lookupVal (m : List (String × String)) (k : String) : Option String :=
  (m.find? (fun p => p.1 == k)).map (fun p => p.2)

/-- The response vocabulary after the source executes
`response_map['b'] = 'B'`: the configured entries plus the reserved
Blank mapping. -/
def fullResponseMap (cfg : Config) : List (String × String) :=
  cfg.responseMap ++ [("b", "B")]

/-- The source's reserved-Blank validation: `assert 'b' not in
response_map.keys()` and `assert 'B' not in response_map.values()`. -/
def responseMapOk (m : List (String × String)) : Bool :=
  !(m.any (fun p => p.1 == "b")) && !(m.any (fun p => p.2 == "B"))

/-- Composition of `df.fillna('B')` followed by
`lambda x: x.lower().strip()` on the response column. -/
def cleanResponse (r : RawRecord) : String :=
  strStrip (strLower (r.response.getD "B"))

/-- Response normalisation: blank-fill, lower-case and strip, keep only
responses in the vocabulary, and map each survivor to its canonical
code. -/
def normalize (cfg : Config) (raws : List RawRecord) : List NormRecord :=
  (raws.filter
      (fun r => (lookupVal (fullResponseMap cfg) (cleanResponse r)).isSome)).map
    (fun r =>
      ⟨r.id, r.date,
        (lookupVal (fullResponseMap cfg) (cleanResponse r)).getD (cleanResponse r)⟩)

/-- Number of elements of `l` whose key equals `k`. -/
def countKeyBy {α κ : Type} [DecidableEq κ] (key : α → κ) (l : List α) (k : κ) : Nat :=
  (l.filter (fun a => decide (key a = k))).length

/-- The (subject, date) key of a normalised record, i.e. the dataframe
index of the source. -/
def recKey (n : NormRecord) : Nat × Int :=
  (n.id, n.date)

/-- Number of rows of `l` with index key `(i, d)`. -/
def keyCount (l : List NormRecord) (i : Nat) (d : Int) : Nat :=
  countKeyBy recKey l (i, d)

/-- Duplicate-key removal: `df[~df.index.duplicated(False)]` keeps exactly
the rows whose (subject, date) key occurs once. -/
def dedupe (l : List NormRecord) : List NormRecord :=
  l.filter (fun r => countKeyBy recKey l (recKey r) == 1)

/-- Start-date registry lookup for a subject id. -/
def startOf (cfg : Config) (i : Nat) : Option Int :=
  (cfg.dateMap.find? (fun p => p.1 == i)).map (fun p => p.2)

/-- Left join of the normalised records with the start-date registry:
`df.join(date_map, how='left')`. -/
def joinStart (cfg : Config) (l : List NormRecord) : List JoinedRecord :=
  l.map (fun r => ⟨r.id, r.date, r.canon, startOf cfg r.id⟩)

/-- The day delta `record date - date_one - offset_days`, undefined
(`NaT`) when the start date is unknown. -/
def deltaOf (cfg : Config) (r : JoinedRecord) : Option Int :=
  r.dateOne.map (fun s => r.date - s - cfg.offsetDays)

/-- Subject ids reported by the consolidated missing-start-date warning:
ids of joined records whose `date_one` is null. -/
def missingStarts (cfg : Config) (l : List NormRecord) : List Nat :=
  (((joinStart cfg l).filter (fun j => j.dateOne.isNone)).map (fun j => j.id)).dedup

/-- The two successive window filters of the source:
`df[df['delta'] >= Timedelta(0)]` then `df[df['delta'] < Timedelta(max_days)]`.
A `NaT` delta compares false and is dropped. -/
def windowFilter (cfg : Config) (l : List JoinedRecord) : List JoinedRecord :=
  (l.filter (fun r =>
      match deltaOf cfg r with
      | some d => decide (0 ≤ d)
      | none => false)).filter (fun r =>
      match deltaOf cfg r with
      | some d => decide (d < (cfg.maxDays : Int))
      | none => false)

/-- Conversion of each surviving joined record into an aligned record
carrying its (now defined) delta. -/
def align (cfg : Config) (l : List JoinedRecord) : List AlignedRecord :=
  (windowFilter cfg l).filterMap
    (fun r => (deltaOf cfg r).map (fun d => ⟨r.id, r.date, r.canon, d⟩))

/-- The full record pipeline of `cli` from the concatenated raw rows to
the aligned records that feed the pivot and aggregates. -/
def pipeline (cfg : Config) (raws : List RawRecord) : List AlignedRecord :=
  align cfg (joinStart cfg (dedupe (normalize cfg raws)))

/-- One-based day number `delta.days + 1` of an aligned record. -/
def dayNum (r : AlignedRecord) : Nat :=
  (r.delta + 1).toNat

/-- Big-endian decimal digits of `n`, the digits of Python `str(n)`. -/
def decDigits (n : Nat) : List Nat :=
  if n = 0 then [0] else (Nat.digits 10 n).reverse

/-- Decimal digit to its character. -/
def digitChar (d : Nat) : Char :=
  match d with
  | 0 => '0' | 1 => '1' | 2 => '2' | 3 => '3' | 4 => '4'
  | 5 => '5' | 6 => '6' | 7 => '7' | 8 => '8' | _ => '9'

/-- Digits of `n` zero-padded on the left to the digit count of `m`,
as in `'{:0{prec}d}'.format(n, prec=len(str(m)))`. -/
def padDigits (m n : Nat) : List Nat :=
  List.replicate ((decDigits m).length - (decDigits n).length) 0 ++ decDigits n

/-- Character form of the padded digits. -/
def labelDigits (m n : Nat) : List Char :=
  (padDigits m n).map digitChar

/-- The pivot column label `'Day{:0{prec}d}'.format(n, prec=len(str(max_days)))`. -/
def pivotLabel (m n : Nat) : String :=
  "Day" ++ String.mk (labelDigits m n)

/-- The pivot column label of an aligned record. -/
def labelOf (cfg : Config) (r : AlignedRecord) : String :=
  pivotLabel cfg.maxDays (dayNum r)

/-- Absence of duplicate (subject, label) entries in the pivot index; the
condition under which the source's `df.pivot` call succeeds. -/
def pivotOk (cfg : Config) (l : List AlignedRecord) : Bool :=
  l.all (fun r =>
    countKeyBy (fun r2 => (r2.id, labelOf cfg r2)) l (r.id, labelOf cfg r) == 1)

/-- The day pivot: fails on duplicate index entries (pandas raises
`ValueError: Index contains duplicate entries, cannot reshape`), otherwise
yields the cell contents keyed by subject id and day label. -/
def dayPivot (cfg : Config) (l : List AlignedRecord) :
    Except String (Nat → String → Option String) :=
  if pivotOk cfg l then
    Except.ok (fun s lab =>
      (l.find? (fun r => r.id == s && labelOf cfg r == lab)).map (fun r => r.canon))
  else
    Except.error "Index contains duplicate entries, cannot reshape"

/-- Records of one subject, in pipeline order (a groupby group). -/
def subjRecords (l : List AlignedRecord) (s : Nat) : List AlignedRecord :=
  l.filter (fun r => decide (r.id = s))

/-- `First_Response`: minimum day number of the subject's aligned records. -/
def firstResponse (l : List AlignedRecord) (s : Nat) : Option Nat :=
  ((subjRecords l s).map dayNum).min?

/-- `First_Yes`: minimum day number among the subject's aligned records
with canonical response `'Y'`; `none` models the missing cell. -/
def firstYes (l : List AlignedRecord) (s : Nat) : Option Nat :=
  (((subjRecords l s).filter (fun r => r.canon == "Y")).map dayNum).min?

/-- `Total_Period`: `(max delta - min delta).days + 1` over the subject's
aligned records, as computed by the source from the delta column. -/
def totalPeriod (l : List AlignedRecord) (s : Nat) : Option Int :=
  match ((subjRecords l s).map (fun r => r.delta)).max?,
      ((subjRecords l s).map (fun r => r.delta)).min? with
  | some dmax, some dmin => some (dmax - dmin + 1)
  | _, _ => none

/-- Canonical codes of the configured vocabulary, the reserved Blank code
included. -/
def canonicalCodes (cfg : Config) : List String :=
  ((fullResponseMap cfg).map (fun p => p.2)).dedup

/-- Canonical codes that occur in at least one aligned record: exactly the
columns produced by the source's `value_counts` pivot. -/
def tallyCodes (l : List AlignedRecord) : List String :=
  (l.map (fun r => r.canon)).dedup

/-- Renaming of a tally column: `{k.upper(): 'Total_%s' % v}` applied via
`rename`, which leaves codes without a configured display name unchanged. -/
def totalColName (cfg : Config) (c : String) : String :=
  match cfg.responseNames.find? (fun p => String.mk (p.1.data.map Char.toUpper) == c) with
  | some p => "Total_" ++ p.2
  | none => c

/-- Names of the per-code total columns present in the output. -/
def tallyColNames (cfg : Config) (l : List AlignedRecord) : List String :=
  (tallyCodes l).map (totalColName cfg)

/-- The source's `groupby(level=0)[response_col].value_counts()`: one
entry per occurring (subject, code) pair with its count. -/
def valueCounts (l : List AlignedRecord) : List ((Nat × String) × Nat) :=
  (l.map (fun r => (r.id, r.canon))).dedup.map
    (fun k => (k, countKeyBy (fun r => (r.id, r.canon)) l k))

/-- Tally cell after `pivot` and `fillna(0)`: the count of the
(subject, code) pair when it occurs, `0` otherwise. -/
def tallyCell (l : List AlignedRecord) (s : Nat) (c : String) : Nat :=
  (((valueCounts l).find? (fun e => decide (e.1 = (s, c)))).map (fun e => e.2)).getD 0

/-- Row index of the final table: the pivot sorts the distinct subject
ids ascending. -/
def resultIds (l : List AlignedRecord) : List Nat :=
  List.insertionSort (· ≤ ·) ((l.map (fun r => r.id)).dedup)

/-- Entry point as guarded by the source's reserved-Blank assertions: the
run aborts before any data file is read when the vocabulary collides with
the Blank code. -/
def runReport (cfg : Config) (raws : List RawRecord) :
    Except String (List AlignedRecord) :=
  if responseMapOk cfg.responseMap then
    Except.ok (pipeline cfg raws)
  else
    Except.error "AssertionError: reserved Blank code collision"

/-- Numeric value of a big-endian digit list. -/
def valBE (l : List Nat) : Nat :=
  l.foldl (fun a d => 10 * a + d) 0

/-- Sample configuration mirroring the spec's worked example: start date
of subject 1 is day 10, `offset_days = 2`, `max_days = 5`. -/
def cfgA : Config :=
  { responseMap := [("y", "Y"), ("n", "N")],
    responseNames := [("y", "Yes"), ("n", "No"), ("b", "Blank")],
    dateMap := [(1, 10), (2, 100)],
    offsetDays := 2,
    maxDays := 5 }

/-- Sample raw rows: an in-window response, a duplicated key (both copies
to be dropped), a blank, an out-of-window response on each side, a subject
missing from the registry, and an invalid code. -/
def rawsA : List RawRecord :=
  [⟨1, 12, some " Y "⟩, ⟨1, 13, some "n"⟩, ⟨1, 13, some "y"⟩,
   ⟨1, 14, none⟩, ⟨1, 17, some "y"⟩, ⟨1, 11, some "y"⟩,
   ⟨3, 12, some "y"⟩, ⟨1, 15, some "x"⟩]

/-- Configuration whose vocabulary collides with the reserved Blank raw
code. -/
def cfgBad : Config :=
  { responseMap := [("b", "X")],
    responseNames := [],
    dateMap := [],
    offsetDays := 0,
    maxDays := 5 }

end CsvCts

namespace CsvCts

theorem countKeyBy_eq {α κ : Type} (key : α → κ) [DecidableEq κ] (l : List α) (k : κ) :
    countKeyBy key l k = (l.filter (fun a => decide (key a = k))).length := rfl

theorem countKeyBy_le_one_of_all_key_once {α κ : Type} [DecidableEq κ]
    (key : α → κ) (l : List α) (k : κ) :
    countKeyBy key (l.filter (fun a => countKeyBy key l (key a) == 1)) k ≤ 1 := by
  by_cases hex : ∃ a ∈ l.filter (fun a => countKeyBy key l (key a) == 1), key a = k
  · obtain ⟨a, ha, hk⟩ := hex
    have hcnt : countKeyBy key l (key a) = 1 := by
      have := (List.mem_filter.mp ha).2
      simpa using this
    have hsub : List.Sublist
        ((l.filter (fun a => countKeyBy key l (key a) == 1)).filter
            (fun a => decide (key a = k)))
          (l.filter (fun a => decide (key a = k))) :=
      List.Sublist.filter _ (List.filter_sublist l)
    have hle := hsub.length_le
    have hone : countKeyBy key l k = 1 := by rw [← hk]; exact hcnt
    rw [countKeyBy_eq] at hone
    rw [countKeyBy_eq]
    omega
  · push_neg at hex
    have hnil : (l.filter (fun a => countKeyBy key l (key a) == 1)).filter
        (fun a => decide (key a = k)) = [] := by
      apply List.filter_eq_nil_iff.mpr
      intro a ha
      simpa using hex a ha
    rw [countKeyBy_eq, hnil]
    simp

theorem countKeyBy_dup_filter_eq_zero {α κ : Type} [DecidableEq κ]
    (key : α → κ) (l : List α) (k : κ) (h : 1 < countKeyBy key l k) :
    countKeyBy key (l.filter (fun a => countKeyBy key l (key a) == 1)) k = 0 := by
  have hnil : (l.filter (fun a => countKeyBy key l (key a) == 1)).filter
      (fun a => decide (key a = k)) = [] := by
    apply List.filter_eq_nil_iff.mpr
    intro a ha
    have hkept := (List.mem_filter.mp ha).2
    intro hka
    have hka' : key a = k := by simpa using hka
    have : countKeyBy key l (key a) = 1 := by simpa using hkept
    rw [hka'] at this
    omega
  rw [countKeyBy_eq, hnil]
  rfl

theorem pairwise_key_of_counts {α κ : Type} [DecidableEq κ] (key : α → κ) :
    ∀ l : List α, (∀ k, countKeyBy key l k ≤ 1) →
      l.Pairwise (fun a b => key a ≠ key b) := by
  intro l
  induction l with
  | nil => intro _; exact List.Pairwise.nil
  | cons a t ih =>
    intro h
    refine List.Pairwise.cons ?_ (ih ?_)
    · intro b hb hab
      have h1 := h (key a)
      rw [countKeyBy_eq, List.filter_cons_of_pos (by simp)] at h1
      rw [List.length_cons] at h1
      have hbmem : b ∈ t.filter (fun x => decide (key x = key a)) :=
        List.mem_filter.mpr ⟨hb, by simpa using hab.symm⟩
      have hpos := List.length_pos_of_mem hbmem
      omega
    · intro k
      have hk := h k
      rw [countKeyBy_eq, List.filter_cons] at hk
      rw [countKeyBy_eq]
      by_cases hak : key a = k
      · rw [if_pos (by simpa using hak)] at hk
        rw [List.length_cons] at hk
        omega
      · rwa [if_neg (by simpa using hak)] at hk

theorem countKeyBy_eq_one_of_pairwise {α κ : Type} [DecidableEq κ] (key : α → κ) :
    ∀ l : List α, l.Pairwise (fun a b => key a ≠ key b) →
      ∀ a ∈ l, countKeyBy key l (key a) = 1 := by
  intro l
  induction l with
  | nil => intro _ a ha; cases ha
  | cons x t ih =>
    intro hp a ha
    have hhead := (List.pairwise_cons.mp hp).1
    have htail := (List.pairwise_cons.mp hp).2
    rw [countKeyBy_eq, List.filter_cons]
    rcases List.mem_cons.mp ha with rfl | hat
    · rw [if_pos (by simp)]
      have hnil : t.filter (fun b => decide (key b = key a)) = [] := by
        apply List.filter_eq_nil_iff.mpr
        intro b hb
        simpa using fun hEq => (hhead b hb) hEq.symm
      simp [hnil]
    · have hxa : key x ≠ key a := hhead a hat
      rw [if_neg (by simpa using hxa)]
      have := ih htail a hat
      rw [countKeyBy_eq] at this
      exact this

theorem pairwise_filterMap_rel {α β : Type} {f : α → Option β}
    {R : α → α → Prop} {S : β → β → Prop}
    (h : ∀ a b x y, R a b → f a = some x → f b = some y → S x y) :
    ∀ {l : List α}, l.Pairwise R → (l.filterMap f).Pairwise S := by
  intro l
  induction l with
  | nil => intro _; simp
  | cons a t ih =>
    intro hp
    have hhead := (List.pairwise_cons.mp hp).1
    have htail := (List.pairwise_cons.mp hp).2
    cases hfa : f a with
    | none => rw [List.filterMap_cons_none hfa]; exact ih htail
    | some x =>
      rw [List.filterMap_cons_some hfa]
      refine List.Pairwise.cons ?_ (ih htail)
      intro y hy
      obtain ⟨b, hb, hfb⟩ := List.mem_filterMap.mp hy
      exact h a b x y (hhead b hb) hfa hfb

end CsvCts

namespace CsvCts

theorem mem_windowFilter_iff (cfg : Config) (l : List JoinedRecord)
    (r : JoinedRecord) (d : Int) (hd : deltaOf cfg r = some d) :
    r ∈ windowFilter cfg l ↔ r ∈ l ∧ 0 ≤ d ∧ d < (cfg.maxDays : Int) := by
  unfold windowFilter
  simp only [List.mem_filter, hd]
  simp [and_assoc]

theorem mem_pipeline {cfg : Config} {raws : List RawRecord} {a : AlignedRecord}
    (h : a ∈ pipeline cfg raws) :
    ∃ s0, startOf cfg a.id = some s0 ∧ a.delta = a.date - s0 - cfg.offsetDays ∧
      0 ≤ a.delta ∧ a.delta < (cfg.maxDays : Int) := by
  unfold pipeline align at h
  obtain ⟨j, hj, hja⟩ := List.mem_filterMap.mp h
  cases hd : deltaOf cfg j with
  | none => rw [hd] at hja; simp at hja
  | some d =>
    rw [hd] at hja
    simp only [Option.map_some'] at hja
    have ha : a = ⟨j.id, j.date, j.canon, d⟩ := (Option.some_inj.mp hja).symm
    have hj2 := List.mem_filter.mp hj
    have hjlt := hj2.2
    have hj1 := List.mem_filter.mp hj2.1
    have hjge := hj1.2
    have hjmem := hj1.1
    rw [hd] at hjge hjlt
    have hge : 0 ≤ d := by simpa using hjge
    have hlt : d < (cfg.maxDays : Int) := by simpa using hjlt
    unfold joinStart at hjmem
    obtain ⟨n, hn, hnj⟩ := List.mem_map.mp hjmem
    have hdo : j.dateOne = startOf cfg j.id := by
      rw [← hnj]
    unfold deltaOf at hd
    cases hdo' : j.dateOne with
    | none => rw [hdo'] at hd; simp at hd
    | some s0 =>
      rw [hdo'] at hd
      simp only [Option.map_some', Option.some_inj] at hd
      refine ⟨s0, ?_, ?_, ?_, ?_⟩
      · rw [ha]
        show startOf cfg j.id = some s0
        rw [← hdo, hdo']
      · rw [ha]
        show d = j.date - s0 - cfg.offsetDays
        omega
      · rw [ha]; exact hge
      · rw [ha]; exact hlt

end CsvCts

namespace CsvCts

theorem foldl_val (l : List Nat) : ∀ a : Nat,
    l.foldl (fun a d => 10 * a + d) a = a * 10 ^ l.length + valBE l := by
  induction l with
  | nil => intro a; simp [valBE]
  | cons h t ih =>
    intro a
    have hv : valBE (h :: t) = h * 10 ^ t.length + valBE t := by
      show (h :: t).foldl (fun a d => 10 * a + d) 0 = _
      rw [List.foldl_cons, ih (10 * 0 + h)]
      ring_nf
    rw [List.foldl_cons, ih (10 * a + h), hv, List.length_cons]
    ring

theorem valBE_cons (h : Nat) (t : List Nat) :
    valBE (h :: t) = h * 10 ^ t.length + valBE t := by
  show (h :: t).foldl (fun a d => 10 * a + d) 0 = _
  rw [List.foldl_cons, foldl_val]
  ring_nf

theorem valBE_lt_pow (l : List Nat) (h : ∀ d ∈ l, d < 10) :
    valBE l < 10 ^ l.length := by
  induction l with
  | nil => simp [valBE]
  | cons a t ih =>
    have ha : a < 10 := h a (List.mem_cons_self a t)
    have ht := ih (fun d hd => h d (List.mem_cons_of_mem a hd))
    rw [valBE_cons, List.length_cons, pow_succ]
    calc a * 10 ^ t.length + valBE t < a * 10 ^ t.length + 10 ^ t.length := by omega
      _ = (a + 1) * 10 ^ t.length := by ring
      _ ≤ 10 * 10 ^ t.length := by
          exact Nat.mul_le_mul_right _ (by omega)
      _ = 10 ^ t.length * 10 := by ring

theorem valBE_append_singleton (l : List Nat) (d : Nat) :
    valBE (l ++ [d]) = 10 * valBE l + d := by
  show (l ++ [d]).foldl (fun a d => 10 * a + d) 0 = _
  rw [List.foldl_append]
  rfl

theorem valBE_reverse_ofDigits : ∀ l : List Nat,
    valBE l.reverse = Nat.ofDigits 10 l := by
  intro l
  induction l with
  | nil => simp [valBE, Nat.ofDigits]
  | cons d t ih =>
    rw [List.reverse_cons, valBE_append_singleton, ih, Nat.ofDigits_cons]
    ring

theorem valBE_decDigits (n : Nat) : valBE (decDigits n) = n := by
  unfold decDigits
  by_cases hn : n = 0
  · subst hn; simp [valBE]
  · rw [if_neg hn, valBE_reverse_ofDigits, Nat.ofDigits_digits]

theorem decDigits_lt10 (n : Nat) : ∀ d ∈ decDigits n, d < 10 := by
  intro d hd
  unfold decDigits at hd
  by_cases hn : n = 0
  · subst hn; simp at hd; omega
  · rw [if_neg hn, List.mem_reverse] at hd
    exact Nat.digits_lt_base (by norm_num) hd

theorem decDigits_len_pos (n : Nat) : 0 < (decDigits n).length := by
  unfold decDigits
  by_cases hn : n = 0
  · subst hn; simp
  · rw [if_neg hn, List.length_reverse, Nat.digits_len 10 n (by norm_num) hn]
    omega

theorem decDigits_len_mono {m n : Nat} (h : m ≤ n) :
    (decDigits m).length ≤ (decDigits n).length := by
  by_cases hm : m = 0
  · subst hm
    have hp := decDigits_len_pos n
    have h0 : (decDigits 0).length = 1 := rfl
    omega
  · have hn : n ≠ 0 := by omega
    unfold decDigits
    rw [if_neg hm, if_neg hn, List.length_reverse, List.length_reverse,
      Nat.digits_len 10 m (by norm_num) hm, Nat.digits_len 10 n (by norm_num) hn]
    have := Nat.log_mono_right (b := 10) h
    omega

theorem valBE_replicate_zero (k : Nat) (l : List Nat) :
    valBE (List.replicate k 0 ++ l) = valBE l := by
  induction k with
  | zero => simp
  | succ k ih =>
    rw [List.replicate_succ, List.cons_append, valBE_cons]
    simpa using ih

theorem padDigits_length {m n : Nat} (h : (decDigits n).length ≤ (decDigits m).length) :
    (padDigits m n).length = (decDigits m).length := by
  unfold padDigits
  rw [List.length_append, List.length_replicate]
  omega

theorem padDigits_lt10 (m n : Nat) : ∀ d ∈ padDigits m n, d < 10 := by
  intro d hd
  unfold padDigits at hd
  rcases List.mem_append.mp hd with h | h
  · have := List.eq_of_mem_replicate h
    omega
  · exact decDigits_lt10 n d h

theorem padDigits_val (m n : Nat) : valBE (padDigits m n) = n := by
  unfold padDigits
  rw [valBE_replicate_zero, valBE_decDigits]

end CsvCts

namespace CsvCts

theorem lex_cons_inv {α : Type} {r : α → α → Prop} {x y : α} {l1 l2 : List α}
    (h : List.Lex r (x :: l1) (y :: l2)) : r x y ∨ x = y := by
  cases h with
  | rel h' => exact Or.inl h'
  | cons h' => exact Or.inr rfl

theorem lex_iff_valBE : ∀ (l1 l2 : List Nat), l1.length = l2.length →
    (∀ d ∈ l1, d < 10) → (∀ d ∈ l2, d < 10) →
    (List.Lex (· < ·) l1 l2 ↔ valBE l1 < valBE l2) := by
  intro l1
  induction l1 with
  | nil =>
    intro l2 hlen _ _
    have : l2 = [] := by
      cases l2 with
      | nil => rfl
      | cons b t => simp at hlen
    subst this
    constructor
    · intro h; exact absurd h (List.Lex.not_nil_right _ _)
    · intro h; omega
  | cons a t1 ih =>
    intro l2 hlen h1 h2
    cases l2 with
    | nil => simp at hlen
    | cons b t2 =>
      have hlt : t1.length = t2.length := by simpa using hlen
      have ha : a < 10 := h1 a (List.mem_cons_self a t1)
      have hb : b < 10 := h2 b (List.mem_cons_self b t2)
      have ht1 : ∀ d ∈ t1, d < 10 := fun d hd => h1 d (List.mem_cons_of_mem a hd)
      have ht2 : ∀ d ∈ t2, d < 10 := fun d hd => h2 d (List.mem_cons_of_mem b hd)
      have hv1 := valBE_lt_pow t1 ht1
      have hv2 := valBE_lt_pow t2 ht2
      rw [valBE_cons, valBE_cons, hlt]
      rcases lt_trichotomy a b with hab | hab | hab
      · constructor
        · intro _
          calc a * 10 ^ t2.length + valBE t1
              < a * 10 ^ t2.length + 10 ^ t2.length := by rw [← hlt] at *; omega
            _ = (a + 1) * 10 ^ t2.length := by ring
            _ ≤ b * 10 ^ t2.length := Nat.mul_le_mul_right _ (by omega)
            _ ≤ b * 10 ^ t2.length + valBE t2 := Nat.le_add_right _ _
        · intro _; exact List.Lex.rel hab
      · subst hab
        rw [List.Lex.cons_iff, ih t2 hlt ht1 ht2]
        omega
      · constructor
        · intro hlex
          rcases lex_cons_inv hlex with h' | h' <;> omega
        · intro hv
          have : b * 10 ^ t2.length + valBE t2
              < a * 10 ^ t2.length + valBE t1 := by
            calc b * 10 ^ t2.length + valBE t2
                < b * 10 ^ t2.length + 10 ^ t2.length := by omega
              _ = (b + 1) * 10 ^ t2.length := by ring
              _ ≤ a * 10 ^ t2.length := Nat.mul_le_mul_right _ (by omega)
              _ ≤ a * 10 ^ t2.length + valBE t1 := Nat.le_add_right _ _
          omega

theorem digitChar_lt_iff {d1 d2 : Nat} (h1 : d1 < 10) (h2 : d2 < 10) :
    digitChar d1 < digitChar d2 ↔ d1 < d2 := by
  interval_cases d1 <;> interval_cases d2 <;> decide

theorem digitChar_eq_iff {d1 d2 : Nat} (h1 : d1 < 10) (h2 : d2 < 10) :
    digitChar d1 = digitChar d2 ↔ d1 = d2 := by
  interval_cases d1 <;> interval_cases d2 <;> decide

theorem lex_map_digitChar : ∀ (l1 l2 : List Nat),
    (∀ d ∈ l1, d < 10) → (∀ d ∈ l2, d < 10) →
    (List.Lex (· < ·) (l1.map digitChar) (l2.map digitChar) ↔
      List.Lex (· < ·) l1 l2) := by
  intro l1
  induction l1 with
  | nil =>
    intro l2 _ _
    cases l2 with
    | nil => simp
    | cons b t2 => simp [List.Lex.nil]
  | cons a t1 ih =>
    intro l2 h1 h2
    cases l2 with
    | nil =>
      constructor
      · intro h; exact absurd h (List.Lex.not_nil_right _ _)
      · intro h; exact absurd h (List.Lex.not_nil_right _ _)
    | cons b t2 =>
      have ha : a < 10 := h1 a (List.mem_cons_self a t1)
      have hb : b < 10 := h2 b (List.mem_cons_self b t2)
      have ht1 : ∀ d ∈ t1, d < 10 := fun d hd => h1 d (List.mem_cons_of_mem a hd)
      have ht2 : ∀ d ∈ t2, d < 10 := fun d hd => h2 d (List.mem_cons_of_mem b hd)
      rw [List.map_cons, List.map_cons]
      rcases lt_trichotomy a b with hab | hab | hab
      · constructor
        · intro _; exact List.Lex.rel hab
        · intro _; exact List.Lex.rel ((digitChar_lt_iff ha hb).mpr hab)
      · subst hab
        rw [List.Lex.cons_iff, List.Lex.cons_iff, ih t2 ht1 ht2]
      · constructor
        · intro hlex
          rcases lex_cons_inv hlex with h' | h'
          · exact absurd ((digitChar_lt_iff ha hb).mp h') (by omega)
          · exact absurd ((digitChar_eq_iff ha hb).mp h') (by omega)
        · intro hlex
          rcases lex_cons_inv hlex with h' | h' <;> omega

end CsvCts

namespace CsvCts

theorem labelDigits_length {m n : Nat} (h : n ≤ m) :
    (labelDigits m n).length = (decDigits m).length := by
  unfold labelDigits
  rw [List.length_map]
  exact padDigits_length (decDigits_len_mono h)

theorem pivotLabel_lt_iff {m n1 n2 : Nat}
    (h1 : n1 ≤ m) (h2 : n2 ≤ m) :
    pivotLabel m n1 < pivotLabel m n2 ↔ n1 < n2 := by
  unfold pivotLabel
  rw [String.lt_iff_toList_lt]
  have hdata : ∀ l : List Char, ("Day" ++ String.mk l).toList = 'D' :: 'a' :: 'y' :: l := by
    intro l
    rfl
  rw [hdata, hdata]
  show List.Lex (· < ·) _ _ ↔ _
  rw [List.Lex.cons_iff, List.Lex.cons_iff, List.Lex.cons_iff]
  unfold labelDigits
  rw [lex_map_digitChar _ _ (padDigits_lt10 m n1) (padDigits_lt10 m n2),
    lex_iff_valBE _ _ ?hlen (padDigits_lt10 m n1) (padDigits_lt10 m n2),
    padDigits_val, padDigits_val]
  case hlen =>
    rw [padDigits_length (decDigits_len_mono h1), padDigits_length (decDigits_len_mono h2)]

theorem pivotLabel_inj {m n1 n2 : Nat}
    (h1 : n1 ≤ m) (h2 : n2 ≤ m) (hne : n1 ≠ n2) :
    pivotLabel m n1 ≠ pivotLabel m n2 := by
  rcases Nat.lt_or_ge n1 n2 with h | h
  · exact ne_of_lt ((pivotLabel_lt_iff h1 h2).mpr h)
  · have : n2 < n1 := by omega
    exact (ne_of_lt ((pivotLabel_lt_iff h2 h1).mpr this)).symm

end CsvCts

namespace CsvCts

theorem pipeline_pairwise_key (cfg : Config) (raws : List RawRecord) :
    (pipeline cfg raws).Pairwise (fun a b => (a.id, a.date) ≠ (b.id, b.date)) := by
  have h1 : (dedupe (normalize cfg raws)).Pairwise (fun a b => recKey a ≠ recKey b) :=
    pairwise_key_of_counts recKey _
      (fun k => countKeyBy_le_one_of_all_key_once recKey (normalize cfg raws) k)
  have h2 : (joinStart cfg (dedupe (normalize cfg raws))).Pairwise
      (fun a b => (a.id, a.date) ≠ (b.id, b.date)) := by
    unfold joinStart
    rw [List.pairwise_map]
    exact h1.imp (fun hab => hab)
  have hsub : List.Sublist
      (windowFilter cfg (joinStart cfg (dedupe (normalize cfg raws))))
      (joinStart cfg (dedupe (normalize cfg raws))) := by
    unfold windowFilter
    exact (List.filter_sublist _).trans (List.filter_sublist _)
  have h3 := List.Pairwise.sublist hsub h2
  unfold pipeline align
  apply pairwise_filterMap_rel ?_ h3
  intro a b x y hab hfa hfb
  cases hda : deltaOf cfg a with
  | none => rw [hda] at hfa; simp at hfa
  | some d1 =>
    cases hdb : deltaOf cfg b with
    | none => rw [hdb] at hfb; simp at hfb
    | some d2 =>
      rw [hda] at hfa
      rw [hdb] at hfb
      simp only [Option.map_some', Option.some_inj] at hfa hfb
      rw [← hfa, ← hfb]
      exact hab

theorem pipeline_pairwise_label (cfg : Config) (raws : List RawRecord) :
    (pipeline cfg raws).Pairwise
      (fun a b => (a.id, labelOf cfg a) ≠ (b.id, labelOf cfg b)) := by
  have hp := pipeline_pairwise_key cfg raws
  refine List.Pairwise.imp_of_mem ?_ hp
  intro a b ha hb hne heq
  obtain ⟨s0, hs0, hda, hge_a, hlt_a⟩ := mem_pipeline ha
  obtain ⟨s1, hs1, hdb, hge_b, hlt_b⟩ := mem_pipeline hb
  have hid : a.id = b.id := congrArg Prod.fst heq
  have hlab : labelOf cfg a = labelOf cfg b := congrArg Prod.snd heq
  have hdate : a.date ≠ b.date := by
    intro hdd
    exact hne (by rw [hid, hdd])
  have hss : s0 = s1 := by
    rw [hid] at hs0
    rw [hs0] at hs1
    exact Option.some_inj.mp hs1
  have hdelta : a.delta ≠ b.delta := by
    rw [hda, hdb, hss]
    intro hh
    apply hdate
    omega
  have hnum : dayNum a ≠ dayNum b := by
    unfold dayNum
    intro hh
    apply hdelta
    omega
  have hbound_a : dayNum a ≤ cfg.maxDays := by
    unfold dayNum
    omega
  have hbound_b : dayNum b ≤ cfg.maxDays := by
    unfold dayNum
    omega
  exact pivotLabel_inj hbound_a hbound_b hnum hlab

theorem pivotOk_pipeline (cfg : Config) (raws : List RawRecord) :
    pivotOk cfg (pipeline cfg raws) = true := by
  unfold pivotOk
  rw [List.all_eq_true]
  intro r hr
  have := countKeyBy_eq_one_of_pairwise (fun r2 => (r2.id, labelOf cfg r2)) _
    (pipeline_pairwise_label cfg raws) r hr
  simpa using this

end CsvCts

namespace CsvCts

/-- C1: a joined record with a known start date and day delta `d` survives
the window filter if and only if `0 ≤ d < max_days`; in particular the
boundary deltas `0` and `max_days - 1` are included while `-1` and
`max_days` are excluded. -/
theorem claim_window_filter_boundary (cfg : Config) (raws : List RawRecord)
    (r : JoinedRecord) (d : Int)
    (hmem : r ∈ joinStart cfg (dedupe (normalize cfg raws)))
    (hd : deltaOf cfg r = some d) :
    r ∈ windowFilter cfg (joinStart cfg (dedupe (normalize cfg raws))) ↔
      0 ≤ d ∧ d < (cfg.maxDays : Int) := by
  rw [mem_windowFilter_iff cfg _ r d hd]
  simp [hmem]

theorem claim_window_filter_boundary_witness :
    ((⟨1, 12, "Y", some 10⟩ : JoinedRecord) ∈
        joinStart cfgA (dedupe (normalize cfgA rawsA)) ∧
      deltaOf cfgA ⟨1, 12, "Y", some 10⟩ = some 0) ∧
    ((⟨1, 12, "Y", some 10⟩ : JoinedRecord) ∈
        windowFilter cfgA (joinStart cfgA (dedupe (normalize cfgA rawsA))) ↔
      0 ≤ (0 : Int) ∧ (0 : Int) < (cfgA.maxDays : Int)) :=
  ⟨⟨by decide, by decide⟩,
    claim_window_filter_boundary cfgA rawsA ⟨1, 12, "Y", some 10⟩ 0
      (by decide) (by decide)⟩

/-- C2: the label of every aligned record is `Day` followed by its day
number zero-padded to exactly the digit count of `max_days`, and on
`[1, max_days]` lexicographic label order coincides with numeric day
order. -/
theorem claim_day_label_padding_order (cfg : Config) (raws : List RawRecord)
    (r : AlignedRecord) (hmem : r ∈ pipeline cfg raws) :
    (labelOf cfg r = "Day" ++ String.mk (labelDigits cfg.maxDays (dayNum r)) ∧
      (labelDigits cfg.maxDays (dayNum r)).length = (decDigits cfg.maxDays).length) ∧
    (∀ n1 n2 : Nat, 1 ≤ n1 → n1 ≤ cfg.maxDays → 1 ≤ n2 → n2 ≤ cfg.maxDays →
      (pivotLabel cfg.maxDays n1 < pivotLabel cfg.maxDays n2 ↔ n1 < n2)) := by
  obtain ⟨s0, hs0, hda, hge, hlt⟩ := mem_pipeline hmem
  have hbound : dayNum r ≤ cfg.maxDays := by
    unfold dayNum
    omega
  refine ⟨⟨rfl, labelDigits_length hbound⟩, ?_⟩
  intro n1 n2 _ hb1 _ hb2
  exact pivotLabel_lt_iff hb1 hb2

theorem claim_day_label_padding_order_witness :
    ((⟨1, 12, "Y", 0⟩ : AlignedRecord) ∈ pipeline cfgA rawsA) ∧
    ((labelOf cfgA ⟨1, 12, "Y", 0⟩ =
        "Day" ++ String.mk (labelDigits cfgA.maxDays (dayNum ⟨1, 12, "Y", 0⟩)) ∧
      (labelDigits cfgA.maxDays (dayNum ⟨1, 12, "Y", 0⟩)).length =
        (decDigits cfgA.maxDays).length) ∧
    (∀ n1 n2 : Nat, 1 ≤ n1 → n1 ≤ cfgA.maxDays → 1 ≤ n2 → n2 ≤ cfgA.maxDays →
      (pivotLabel cfgA.maxDays n1 < pivotLabel cfgA.maxDays n2 ↔ n1 < n2))) :=
  ⟨by decide, claim_day_label_padding_order cfgA rawsA ⟨1, 12, "Y", 0⟩ (by decide)⟩

/-- C3: duplicate-key removal is total: a (subject, date) key occurring in
more than one normalised row occurs in zero rows of the deduplicated
set. -/
theorem claim_duplicate_removal_total (cfg : Config) (raws : List RawRecord)
    (i : Nat) (d : Int) (h : 1 < keyCount (normalize cfg raws) i d) :
    keyCount (dedupe (normalize cfg raws)) i d = 0 := by
  unfold keyCount at h ⊢
  unfold dedupe
  exact countKeyBy_dup_filter_eq_zero recKey (normalize cfg raws) (i, d) h

theorem claim_duplicate_removal_total_witness :
    1 < keyCount (normalize cfgA rawsA) 1 13 ∧
      keyCount (dedupe (normalize cfgA rawsA)) 1 13 = 0 :=
  ⟨by decide, claim_duplicate_removal_total cfgA rawsA 1 13 (by decide)⟩

/-- C9: a configured raw code equal to the reserved Blank raw code, or a
configured canonical code equal to the reserved Blank canonical code,
makes the run abort with a fatal error regardless of the data. -/
theorem claim_blank_collision_aborts (cfg : Config) (raws : List RawRecord)
    (h : ∃ p ∈ cfg.responseMap, p.1 = "b" ∨ p.2 = "B") :
    runReport cfg raws =
      Except.error "AssertionError: reserved Blank code collision" := by
  unfold runReport
  have hok : responseMapOk cfg.responseMap = false := by
    obtain ⟨p, hp, hcase⟩ := h
    unfold responseMapOk
    rcases hcase with h1 | h1
    · have hany : cfg.responseMap.any (fun p => p.1 == "b") = true :=
        List.any_eq_true.mpr ⟨p, hp, by simp [h1]⟩
      simp [hany]
    · have hany : cfg.responseMap.any (fun p => p.2 == "B") = true :=
        List.any_eq_true.mpr ⟨p, hp, by simp [h1]⟩
      simp [hany]
  rw [hok]
  simp

theorem claim_blank_collision_aborts_witness :
    (∃ p ∈ cfgBad.responseMap, p.1 = "b" ∨ p.2 = "B") ∧
      runReport cfgBad [] =
        Except.error "AssertionError: reserved Blank code collision" :=
  ⟨⟨("b", "X"), by decide, Or.inl rfl⟩,
    claim_blank_collision_aborts cfgBad []
      ⟨("b", "X"), by decide, Or.inl rfl⟩⟩

/-- C10: after upstream duplicate-key removal no two surviving records of
one subject share a day label, so the day pivot's duplicate-entry failure
branch is unreachable: the pivot always succeeds. -/
theorem claim_day_pivot_collision_free (cfg : Config) (raws : List RawRecord) :
    ∃ f, dayPivot cfg (pipeline cfg raws) = Except.ok f := by
  unfold dayPivot
  rw [pivotOk_pipeline cfg raws]
  exact ⟨_, rfl⟩

end CsvCts

namespace CsvCts

/-- C7: the output row ids are sorted ascending, contain no duplicate, and
are exactly the subject ids with at least one record surviving the window
filter. -/
theorem claim_output_rows_unique_sorted (cfg : Config) (raws : List RawRecord) :
    (resultIds (pipeline cfg raws)).Sorted (· ≤ ·) ∧
    (resultIds (pipeline cfg raws)).Nodup ∧
    (∀ s, s ∈ resultIds (pipeline cfg raws) ↔
      ∃ r ∈ pipeline cfg raws, r.id = s) := by
  have hperm := List.perm_insertionSort (· ≤ ·)
    (((pipeline cfg raws).map (fun r => r.id)).dedup)
  refine ⟨List.sorted_insertionSort _ _, ?_, ?_⟩
  · exact hperm.nodup_iff.mpr (List.nodup_dedup _)
  · intro s
    unfold resultIds
    rw [hperm.mem_iff, List.mem_dedup, List.mem_map]

/-- C8: a deduplicated record whose subject has no start-date entry is
retained by the left join with a null start date, is dropped by the window
filter, contributes to no aligned record (hence to no output row), and its
subject id appears in the consolidated missing-start warning. -/
theorem claim_missing_start_retained_then_dropped (cfg : Config)
    (raws : List RawRecord) (r : NormRecord)
    (hmem : r ∈ dedupe (normalize cfg raws))
    (hnone : startOf cfg r.id = none) :
    (⟨r.id, r.date, r.canon, none⟩ : JoinedRecord) ∈
        joinStart cfg (dedupe (normalize cfg raws)) ∧
    (⟨r.id, r.date, r.canon, none⟩ : JoinedRecord) ∉
        windowFilter cfg (joinStart cfg (dedupe (normalize cfg raws))) ∧
    (∀ a ∈ pipeline cfg raws, a.id ≠ r.id) ∧
    r.id ∈ missingStarts cfg (dedupe (normalize cfg raws)) := by
  have hjmem : (⟨r.id, r.date, r.canon, none⟩ : JoinedRecord) ∈
      joinStart cfg (dedupe (normalize cfg raws)) := by
    unfold joinStart
    exact List.mem_map.mpr ⟨r, hmem, by rw [hnone]⟩
  refine ⟨hjmem, ?_, ?_, ?_⟩
  · intro hin
    unfold windowFilter at hin
    have h2 := List.mem_filter.mp hin
    have h1 := List.mem_filter.mp h2.1
    have hpred := h1.2
    simp [deltaOf] at hpred
  · intro a ha hid
    obtain ⟨s0, hs0, _, _, _⟩ := mem_pipeline ha
    rw [hid, hnone] at hs0
    simp at hs0
  · unfold missingStarts
    apply List.mem_dedup.mpr
    apply List.mem_map.mpr
    refine ⟨⟨r.id, r.date, r.canon, none⟩, ?_, rfl⟩
    apply List.mem_filter.mpr
    exact ⟨hjmem, by simp⟩

theorem claim_missing_start_retained_then_dropped_witness :
    ((⟨3, 12, "Y"⟩ : NormRecord) ∈ dedupe (normalize cfgA rawsA) ∧
      startOf cfgA 3 = none) ∧
    ((⟨3, 12, "Y", none⟩ : JoinedRecord) ∈
        joinStart cfgA (dedupe (normalize cfgA rawsA)) ∧
    (⟨3, 12, "Y", none⟩ : JoinedRecord) ∉
        windowFilter cfgA (joinStart cfgA (dedupe (normalize cfgA rawsA))) ∧
    (∀ a ∈ pipeline cfgA rawsA, a.id ≠ 3) ∧
    3 ∈ missingStarts cfgA (dedupe (normalize cfgA rawsA))) :=
  ⟨⟨by decide, by decide⟩,
    claim_missing_start_retained_then_dropped cfgA rawsA ⟨3, 12, "Y"⟩
      (by decide) (by decide)⟩

end CsvCts

namespace CsvCts

theorem foldl_max_map_sub (c : Int) : ∀ (t : List Int) (a : Int),
    (t.map (fun x => x - c)).foldl max (a - c) = t.foldl max a - c := by
  intro t
  induction t with
  | nil => intro a; rfl
  | cons x t ih =>
    intro a
    rw [List.map_cons, List.foldl_cons, List.foldl_cons, max_sub_sub_right a x c,
      ih (max a x)]

theorem foldl_min_map_sub (c : Int) : ∀ (t : List Int) (a : Int),
    (t.map (fun x => x - c)).foldl min (a - c) = t.foldl min a - c := by
  intro t
  induction t with
  | nil => intro a; rfl
  | cons x t ih =>
    intro a
    rw [List.map_cons, List.foldl_cons, List.foldl_cons, min_sub_sub_right a x c,
      ih (min a x)]

theorem max?_map_sub (l : List Int) (c : Int) :
    (l.map (fun x => x - c)).max? = l.max?.map (fun x => x - c) := by
  cases l with
  | nil => rfl
  | cons a t =>
    show some ((t.map (fun x => x - c)).foldl max (a - c)) = some (t.foldl max a - c)
    rw [foldl_max_map_sub]

theorem min?_map_sub (l : List Int) (c : Int) :
    (l.map (fun x => x - c)).min? = l.min?.map (fun x => x - c) := by
  cases l with
  | nil => rfl
  | cons a t =>
    show some ((t.map (fun x => x - c)).foldl min (a - c)) = some (t.foldl min a - c)
    rw [foldl_min_map_sub]

/-- C5: for every subject in the output, `Total_Period` (computed by the
source from the delta column) equals the span of the subject's surviving
record dates in days plus one. -/
theorem claim_total_period_date_span (cfg : Config) (raws : List RawRecord)
    (s : Nat) (h : subjRecords (pipeline cfg raws) s ≠ []) :
    ∃ dmax dmin : Int,
      ((subjRecords (pipeline cfg raws) s).map (fun r => r.date)).max? = some dmax ∧
      ((subjRecords (pipeline cfg raws) s).map (fun r => r.date)).min? = some dmin ∧
      totalPeriod (pipeline cfg raws) s = some (dmax - dmin + 1) := by
  obtain ⟨r0, hr0⟩ := List.exists_mem_of_ne_nil _ h
  have hr0p : r0 ∈ pipeline cfg raws ∧ r0.id = s := by
    have := List.mem_filter.mp hr0
    exact ⟨this.1, by simpa using this.2⟩
  obtain ⟨s0, hs0, _, _, _⟩ := mem_pipeline hr0p.1
  rw [hr0p.2] at hs0
  have hdelta_all : ∀ r ∈ subjRecords (pipeline cfg raws) s,
      r.delta = r.date - (s0 + cfg.offsetDays) := by
    intro r hr
    have hrp := List.mem_filter.mp hr
    have hid : r.id = s := by simpa using hrp.2
    obtain ⟨s1, hs1, hd, _, _⟩ := mem_pipeline hrp.1
    rw [hid, hs0] at hs1
    have : s1 = s0 := (Option.some_inj.mp hs1).symm
    rw [hd, this]
    omega
  have hmapeq : (subjRecords (pipeline cfg raws) s).map (fun r => r.delta) =
      ((subjRecords (pipeline cfg raws) s).map (fun r => r.date)).map
        (fun x => x - (s0 + cfg.offsetDays)) := by
    rw [List.map_map]
    exact List.map_congr_left hdelta_all
  have hne : (subjRecords (pipeline cfg raws) s).map (fun r => r.date) ≠ [] := by
    intro hnil
    exact h (List.map_eq_nil_iff.mp hnil)
  cases hmax : ((subjRecords (pipeline cfg raws) s).map (fun r => r.date)).max? with
  | none => exact absurd (List.max?_eq_none_iff.mp hmax) hne
  | some dmax =>
    cases hmin : ((subjRecords (pipeline cfg raws) s).map (fun r => r.date)).min? with
    | none => exact absurd (List.min?_eq_none_iff.mp hmin) hne
    | some dmin =>
      refine ⟨dmax, dmin, rfl, rfl, ?_⟩
      unfold totalPeriod
      rw [hmapeq, max?_map_sub, min?_map_sub, hmax, hmin]
      simp only [Option.map_some']
      congr 1
      omega

theorem claim_total_period_date_span_witness :
    (subjRecords (pipeline cfgA rawsA) 1 ≠ []) ∧
    (∃ dmax dmin : Int,
      ((subjRecords (pipeline cfgA rawsA) 1).map (fun r => r.date)).max? = some dmax ∧
      ((subjRecords (pipeline cfgA rawsA) 1).map (fun r => r.date)).min? = some dmin ∧
      totalPeriod (pipeline cfgA rawsA) 1 = some (dmax - dmin + 1)) :=
  ⟨by decide, claim_total_period_date_span cfgA rawsA 1 (by decide)⟩

end CsvCts

namespace CsvCts

/-- C6: `First_Yes` of a subject is the minimum day number among the
subject's surviving records whose canonical response is the designated
Yes code `'Y'`, and it is absent exactly when the subject has no such
record. -/
theorem claim_first_yes_min (cfg : Config) (raws : List RawRecord) (s : Nat) :
    (firstYes (pipeline cfg raws) s = none ↔
      ∀ r ∈ pipeline cfg raws, r.id = s → r.canon ≠ "Y") ∧
    (∀ d : Nat, firstYes (pipeline cfg raws) s = some d ↔
      (∃ r ∈ pipeline cfg raws, r.id = s ∧ r.canon = "Y" ∧ dayNum r = d) ∧
      (∀ r ∈ pipeline cfg raws, r.id = s → r.canon = "Y" → d ≤ dayNum r)) := by
  constructor
  · unfold firstYes subjRecords
    rw [List.min?_eq_none_iff, List.map_eq_nil_iff, List.filter_eq_nil_iff]
    constructor
    · intro hh r hr hid hY
      have hmem : r ∈ (pipeline cfg raws).filter (fun r => decide (r.id = s)) :=
        List.mem_filter.mpr ⟨hr, by simp [hid]⟩
      exact absurd (by simp [hY]) (hh r hmem)
    · intro hh r hr hbeq
      have hm := List.mem_filter.mp hr
      exact hh r hm.1 (by simpa using hm.2) (by simpa using hbeq)
  · intro d
    unfold firstYes subjRecords
    rw [List.min?_eq_some_iff (fun a => Nat.le_refl a) (fun a b => by omega)
      (fun a b c => by omega)]
    constructor
    · rintro ⟨hmem, hle⟩
      obtain ⟨r, hrf, hdn⟩ := List.mem_map.mp hmem
      have h2 := List.mem_filter.mp hrf
      have h1 := List.mem_filter.mp h2.1
      refine ⟨⟨r, h1.1, by simpa using h1.2, by simpa using h2.2, hdn⟩, ?_⟩
      intro r2 hr2 hid2 hY2
      apply hle
      apply List.mem_map.mpr
      refine ⟨r2, ?_, rfl⟩
      exact List.mem_filter.mpr
        ⟨List.mem_filter.mpr ⟨hr2, by simp [hid2]⟩, by simp [hY2]⟩
    · rintro ⟨⟨r, hrP, hid, hY, hdn⟩, hlb⟩
      constructor
      · apply List.mem_map.mpr
        refine ⟨r, ?_, hdn⟩
        exact List.mem_filter.mpr
          ⟨List.mem_filter.mpr ⟨hrP, by simp [hid]⟩, by simp [hY]⟩
      · intro b hb
        obtain ⟨r2, hr2f, hdn2⟩ := List.mem_map.mp hb
        have h2 := List.mem_filter.mp hr2f
        have h1 := List.mem_filter.mp h2.1
        rw [← hdn2]
        exact hlb r2 h1.1 (by simpa using h1.2) (by simpa using h2.2)

end CsvCts

namespace CsvCts

theorem find?_pair_map_mem {κ : Type} [DecidableEq κ] (f : κ → Nat) (k : κ) :
    ∀ keys : List κ, k ∈ keys →
      (keys.map (fun k2 => (k2, f k2))).find? (fun e => decide (e.1 = k)) =
        some (k, f k) := by
  intro keys
  induction keys with
  | nil => intro h; cases h
  | cons a t ih =>
    intro h
    rw [List.map_cons]
    by_cases hak : a = k
    · subst hak
      rw [List.find?_cons_of_pos _ (by simp)]
    · rw [List.find?_cons_of_neg _ (by simp [hak])]
      exact ih (by
        rcases List.mem_cons.mp h with h1 | h1
        · exact absurd h1.symm hak
        · exact h1)

theorem find?_pair_map_not_mem {κ : Type} [DecidableEq κ] (f : κ → Nat) (k : κ)
    (keys : List κ) (h : k ∉ keys) :
    (keys.map (fun k2 => (k2, f k2))).find? (fun e => decide (e.1 = k)) = none := by
  apply List.find?_eq_none.mpr
  intro e he
  obtain ⟨k2, hk2, hek⟩ := List.mem_map.mp he
  intro hdec
  apply h
  have : e.1 = k := by simpa using hdec
  rw [← hek] at this
  rw [← this]
  exact hk2

/-- C4 (amended): every canonical code occurring in at least one surviving
aligned record yields a `Total_<display name>` column, and for every
subject the cell of that column equals the number of the subject's
surviving records carrying the code (`0`, not missing, when there are
none). -/
theorem claim_total_columns_amended (cfg : Config) (raws : List RawRecord)
    (c : String) (h : c ∈ tallyCodes (pipeline cfg raws)) :
    totalColName cfg c ∈ tallyColNames cfg (pipeline cfg raws) ∧
    ∀ s : Nat, tallyCell (pipeline cfg raws) s c =
      countKeyBy (fun r => (r.id, r.canon)) (pipeline cfg raws) (s, c) := by
  constructor
  · unfold tallyColNames
    exact List.mem_map.mpr ⟨c, h, rfl⟩
  · intro s
    unfold tallyCell valueCounts
    by_cases hsc : (s, c) ∈ ((pipeline cfg raws).map (fun r => (r.id, r.canon))).dedup
    · rw [find?_pair_map_mem _ (s, c) _ hsc]
      rfl
    · rw [find?_pair_map_not_mem _ (s, c) _ hsc]
      have hzero : countKeyBy (fun r => (r.id, r.canon)) (pipeline cfg raws) (s, c) = 0 := by
        rw [countKeyBy_eq]
        have : (pipeline cfg raws).filter (fun r => decide ((r.id, r.canon) = (s, c))) = [] := by
          apply List.filter_eq_nil_iff.mpr
          intro r hr hdec
          apply hsc
          apply List.mem_dedup.mpr
          apply List.mem_map.mpr
          exact ⟨r, hr, by simpa using hdec⟩
        rw [this]
        rfl
      rw [hzero]
      rfl

theorem claim_total_columns_amended_witness :
    ("Y" ∈ tallyCodes (pipeline cfgA rawsA)) ∧
    (totalColName cfgA "Y" ∈ tallyColNames cfgA (pipeline cfgA rawsA) ∧
    ∀ s : Nat, tallyCell (pipeline cfgA rawsA) s "Y" =
      countKeyBy (fun r => (r.id, r.canon)) (pipeline cfgA rawsA) (s, "Y")) :=
  ⟨by decide, claim_total_columns_amended cfgA rawsA "Y" (by decide)⟩

/-- C4 (counterexample): with the sample configuration the canonical code
`N` (and its configured display name `No`) occurs in no surviving record,
so the output contains no `Total_No` column: the original claim that every
canonical code yields a total column fails. -/
theorem claim_total_columns_counterexample :
    ¬ (∀ c ∈ canonicalCodes cfgA,
        totalColName cfgA c ∈ tallyColNames cfgA (pipeline cfgA rawsA)) := by
  decide

end CsvCts
